import Mathlib

/-!
Verification of the mass-mv specification against the source.

The development shallowly embeds the parts of the program the claims are
about:

* `src/iter.rs` — the conflict scheduler (`DataTracker`, `check_iteration`,
  the `Forward` and `Reverse` iterators, `Conflict`, `MultimodeConflict`).
  Paths are modelled as an arbitrary type `P` with decidable equality; the
  `HashMap<&Path, bool>` becomes an association list with first-match lookup
  (the construction in `DataTracker::new` gives every key the same value
  `true`, and updates rewrite every entry of a key, so the association list
  agrees with the hash map on every lookup).
* `src/main.rs` — `has_conflict`, the conflict check the shipped binary
  actually runs (this `main.rs` does not declare `mod iter;`).
* `src/template.rs` — the template compiler.  The scan
  `captures_iter` with the pattern "[^\x5c\x5c]?(\x7b([FfNnOo0])(:\x5cd+)?\x7d)"
  is embedded as a direct left-to-right scanner, see the comment at
  `tokenAt`.
* `src/rename.rs` — `get_width`, the `Display` impl for `RenameContext`,
  `format_filename`, `extract_name` and `Renamer::rename`.  File names are
  modelled as `List Char` (byte = character: the concrete inputs of the
  claims are ASCII); `std::path` stem/extension splitting is embedded in
  `splitLastDot`, `extension`, `fileStem` and `setExtension`.

Machine integers (`usize`, `u32`) are modelled as `Nat`; the one place the
source behaviour depends on overflow (`checked_mul` in `get_width`, and the
`usize` parse of a width quantifier) carries an explicit bound
`USIZE_MAX = 2 ^ 64 - 1`.
-/

set_option linter.unusedSectionVars false

namespace MassMv

/-! ## Conflict scheduler (src/iter.rs) -/

/-- Result of `DataTracker::check_iteration`: `Result<(), Conflict>` where a
`Conflict` is the `(from, to)` pair of the failing operation. -/
inductive CheckResult (P : Type) where
  | ok
  | conflict (c : P × P)
deriving DecidableEq

variable {P : Type} [DecidableEq P]

/-- Lookup in the pending map: `self.paths.get(k)` on the association list. -/
def mapGet (m : List (P × Bool)) (k : P) : Option Bool :=
  (m.find? (fun e => decide (e.1 = k))).map Prod.snd

/-- Update in the pending map: `self.paths.get_mut(k)` followed by an
assignment.  A key absent from the map is left absent, exactly as `get_mut`
returning `None` leads to no write. -/
def mapSet (m : List (P × Bool)) (k : P) (b : Bool) : List (P × Bool) :=
  m.map (fun e => if e.1 = k then (e.1, b) else e)

/-- `DataTracker::new`: every `from` path of the batch is marked pending
(`true`). -/
def DataTracker.new (fs : List P) : List (P × Bool) :=
  fs.map (fun p => (p, true))

/-- `DataTracker::reset`: every tracked path is marked pending again. -/
def resetTracker (m : List (P × Bool)) : List (P × Bool) :=
  m.map (fun e => (e.1, true))

/-- Loop body of `check_iteration`: mark `from` vacated, then fail if `to` is
still pending (`unwrap_or_default` makes an untracked `to` non-pending). -/
def checkGo : List (P × Bool) → List (P × P) → CheckResult P
  | _, [] => CheckResult.ok
  | m, (f, t) :: rest =>
    if (mapGet (mapSet m f false) t).getD false then CheckResult.conflict (f, t)
    else checkGo (mapSet m f false) rest

/-- `DataTracker::check_iteration`: reset ("just in case"), then scan the
candidate order. -/
def check_iteration (m : List (P × Bool)) (ops : List (P × P)) : CheckResult P :=
  checkGo (resetTracker m) ops

/-- The two candidate orders of spec section 4.3, mirroring the `Forward`
and `Reverse` iterator types of src/iter.rs. -/
inductive Direction where
  | forward
  | reverse
deriving DecidableEq

/-- Operations yielded by `Forward::next`: `(from[i], to[i])` for
`i = 0, 1, ...`.  The iterator indexes `to` with the same cursor it bounds
by `from.len()`, so for the equal-length batches of the claims it yields
exactly the zip of the two lists. -/
def forwardOps (fs ts : List P) : List (P × P) :=
  fs.zip ts

/-- Operations yielded by `Reverse::next`: the same pairs, last index
first. -/
def reverseOps (fs ts : List P) : List (P × P) :=
  (fs.zip ts).reverse

/-- Candidate order selected by a direction. -/
def orderOps (d : Direction) (fs ts : List P) : List (P × P) :=
  match d with
  | Direction.forward => forwardOps fs ts
  | Direction.reverse => reverseOps fs ts

/-- Outcome of the order-selection policy. -/
inductive OrderSelection (P : Type) where
  | forward
  | reverse
  | multi (fwd rev : P × P)
deriving DecidableEq

/-- Modelled from the spec: the selection policy of spec section 4.3 ("try
Forward first; if safe, commit to Forward. Otherwise reset the PendingMap and
try Reverse; if safe, commit to Reverse. If both fail, fail the whole batch
with a MultiOrderConflict carrying both discovered Conflicts").  The policy's
driver is absent from src/: src/iter.rs declares `MultimodeConflict` and
`MultimodeConflict::new(forward, reverse)` but src/main.rs never calls into
src/iter.rs, so the committing caller exists only in the spec.  The reset
between passes is the `self.reset()` at the top of `check_iteration`. -/
def selectOrder (fs ts : List P) : OrderSelection P :=
  match check_iteration (DataTracker.new fs) (orderOps Direction.forward fs ts) with
  | CheckResult.ok => OrderSelection.forward
  | CheckResult.conflict cf =>
    match check_iteration (DataTracker.new fs) (orderOps Direction.reverse fs ts) with
    | CheckResult.ok => OrderSelection.reverse
    | CheckResult.conflict cr => OrderSelection.multi cf cr

/-! ## main.rs conflict check (src/main.rs, `has_conflict`) -/

/-- Index a path receives in the `existing_paths` hash map of
`has_conflict`: insertion is in index order, so a duplicated path keeps its
last index. -/
def lastIdxOf (paths : List P) (p : P) : Option Nat :=
  ((paths.enum.reverse).find? (fun q => decide (q.2 = p))).map Prod.fst

/-- `has_conflict` of src/main.rs: the first destination that equals a source
path of a strictly later index.  This is the only conflict check the shipped
`main` runs before acting. -/
def has_conflict (paths newPaths : List P) : Option P :=
  (newPaths.enum.filterMap (fun q =>
    match lastIdxOf paths q.2 with
    | some ei => if q.1 < ei then some q.2 else none
    | none => none)).head?

/-! ## Pending-map lemmas -/

theorem mapGet_cons (e : P × Bool) (rest : List (P × Bool)) (k : P) :
    mapGet (e :: rest) k = if e.1 = k then some e.2 else mapGet rest k := by
  by_cases h : e.1 = k
  · rw [if_pos h, mapGet, List.find?_cons_of_pos _ (by simpa using h)]
    rfl
  · rw [if_neg h, mapGet, List.find?_cons_of_neg _ (by simpa using h)]
    rfl

theorem mapSet_cons (e : P × Bool) (rest : List (P × Bool)) (k : P) (b : Bool) :
    mapSet (e :: rest) k b = (if e.1 = k then (e.1, b) else e) :: mapSet rest k b :=
  rfl

theorem mapGet_set_self (m : List (P × Bool)) (k : P) :
    (mapGet (mapSet m k false) k).getD false = false := by
  induction m with
  | nil => rfl
  | cons e rest ih =>
    rw [mapSet_cons]
    by_cases h : e.1 = k
    · rw [if_pos h, mapGet_cons]
      simp [h]
    · rw [if_neg h, mapGet_cons, if_neg h]
      exact ih

theorem mapGet_set_ne (m : List (P × Bool)) (k k2 : P) (b : Bool)
    (h : k2 ≠ k) : mapGet (mapSet m k b) k2 = mapGet m k2 := by
  induction m with
  | nil => rfl
  | cons e rest ih =>
    rw [mapSet_cons]
    by_cases he : e.1 = k
    · have he2 : ¬ e.1 = k2 := fun hc => h (hc.symm.trans he)
      rw [if_pos he, mapGet_cons, mapGet_cons, if_neg he2]
      have : ¬ (e.1, b).1 = k2 := he2
      rw [if_neg this]
      exact ih
    · rw [if_neg he, mapGet_cons, mapGet_cons]
      by_cases he2 : e.1 = k2
      · rw [if_pos he2, if_pos he2]
      · rw [if_neg he2, if_neg he2]
        exact ih

theorem mapGet_new (fs : List P) (p : P) (h : p ∈ fs) :
    mapGet (DataTracker.new fs) p = some true := by
  induction fs with
  | nil => cases h
  | cons f rest ih =>
    have hstep : DataTracker.new (f :: rest) = (f, true) :: DataTracker.new rest := rfl
    rw [hstep, mapGet_cons]
    by_cases hf : (f, true).1 = p
    · rw [if_pos hf]
    · rw [if_neg hf]
      have : p ∈ rest := by
        cases h with
        | head => exact absurd rfl hf
        | tail _ hm => exact hm
      exact ih this

theorem resetTracker_new (fs : List P) :
    resetTracker (DataTracker.new fs) = DataTracker.new fs := by
  simp [resetTracker, DataTracker.new, List.map_map, Function.comp]

/-- Core safety invariant: if the pending scan accepts `ops` starting from a
state where every operation's source is pending, and the sources are pairwise
distinct, then no destination equals the source of a strictly later
operation. -/
theorem checkGo_safe (ops : List (P × P)) :
    ∀ m : List (P × Bool), checkGo m ops = CheckResult.ok →
      (∀ q ∈ ops, mapGet m q.1 = some true) →
      (ops.map Prod.fst).Nodup →
      List.Pairwise (fun a b : P × P => a.2 ≠ b.1) ops := by
  induction ops with
  | nil => intro m _ _ _; exact List.Pairwise.nil
  | cons op rest ih =>
    intro m hok hpend hnd
    obtain ⟨f, t⟩ := op
    rw [List.map_cons, List.nodup_cons] at hnd
    rw [show checkGo m ((f, t) :: rest)
        = (if (mapGet (mapSet m f false) t).getD false then CheckResult.conflict (f, t)
           else checkGo (mapSet m f false) rest) from rfl] at hok
    by_cases hc : (mapGet (mapSet m f false) t).getD false = true
    · rw [if_pos hc] at hok
      exact CheckResult.noConfusion hok
    rw [if_neg hc] at hok
    refine List.pairwise_cons.mpr ⟨?_, ?_⟩
    · intro b hb ht
      have ht2 : t = b.1 := ht
      have hb1 : b.1 ∈ rest.map Prod.fst := List.mem_map_of_mem Prod.fst hb
      have hbf : b.1 ≠ f := fun hcc => hnd.1 (hcc ▸ hb1)
      have hget : mapGet (mapSet m f false) b.1 = some true := by
        rw [mapGet_set_ne m f b.1 false hbf]
        exact hpend b (List.mem_cons_of_mem _ hb)
      apply hc
      rw [ht2, hget]
      rfl
    · refine ih (mapSet m f false) hok ?_ hnd.2
      intro q hq
      have hq1 : q.1 ∈ rest.map Prod.fst := List.mem_map_of_mem Prod.fst hq
      have hqf : q.1 ≠ f := fun hc => hnd.1 (hc ▸ hq1)
      rw [mapGet_set_ne m f q.1 false hqf]
      exact hpend q (List.mem_cons_of_mem _ hq)

theorem orderOps_fst_mem (d : Direction) (fs ts : List P) (q : P × P)
    (h : q ∈ orderOps d fs ts) : q.1 ∈ fs := by
  have hz : q ∈ fs.zip ts := by
    cases d with
    | forward => exact h
    | reverse => exact List.mem_reverse.mp h
  obtain ⟨a, b⟩ := q
  exact (List.of_mem_zip hz).1

theorem orderOps_fst_nodup (d : Direction) (fs ts : List P)
    (hlen : fs.length = ts.length) (hnd : fs.Nodup) :
    ((orderOps d fs ts).map Prod.fst).Nodup := by
  have hfst : (fs.zip ts).map Prod.fst = fs :=
    List.map_fst_zip fs ts (le_of_eq hlen)
  cases d with
  | forward =>
    simpa [orderOps, forwardOps, hfst] using hnd
  | reverse =>
    simp only [orderOps, reverseOps, List.map_reverse, hfst]
    exact List.nodup_reverse.mpr hnd

/-- C1: for equal-length lists with pairwise-distinct sources, if
`check_iteration` accepts a candidate order (Forward or Reverse), then in
that order no operation's destination equals the source of any strictly
later operation. -/
theorem c1_accepted_order_safe (fs ts : List P)
    (hlen : fs.length = ts.length) (hnd : fs.Nodup) (d : Direction)
    (h : check_iteration (DataTracker.new fs) (orderOps d fs ts) = CheckResult.ok) :
    List.Pairwise (fun a b : P × P => a.2 ≠ b.1) (orderOps d fs ts) := by
  rw [check_iteration, resetTracker_new] at h
  refine checkGo_safe (orderOps d fs ts) (DataTracker.new fs) h ?_
    (orderOps_fst_nodup d fs ts hlen hnd)
  intro q hq
  exact mapGet_new fs q.1 (orderOps_fst_mem d fs ts q hq)

/-- Witness for C1 at a concrete batch: the shift-down batch in forward
order. -/
theorem c1_accepted_order_safe_witness :
    List.Pairwise (fun a b : Nat × Nat => a.2 ≠ b.1)
      (orderOps Direction.forward [1, 2, 3] [0, 1, 2]) :=
  c1_accepted_order_safe [1, 2, 3] [0, 1, 2] (by decide) (by decide)
    Direction.forward (by decide)

theorem checkGo_conflict_ne (ops : List (P × P)) :
    ∀ (m : List (P × Bool)) (f t : P),
      checkGo m ops = CheckResult.conflict (f, t) → f ≠ t := by
  induction ops with
  | nil =>
    intro m f t h
    exact CheckResult.noConfusion h
  | cons op rest ih =>
    intro m f t h
    obtain ⟨f0, t0⟩ := op
    rw [show checkGo m ((f0, t0) :: rest)
        = (if (mapGet (mapSet m f0 false) t0).getD false then CheckResult.conflict (f0, t0)
           else checkGo (mapSet m f0 false) rest) from rfl] at h
    by_cases hc : (mapGet (mapSet m f0 false) t0).getD false = true
    · rw [if_pos hc] at h
      injection h with h3
      cases h3
      intro hft
      rw [hft, mapGet_set_self] at hc
      exact Bool.noConfusion hc
    · rw [if_neg hc] at h
      exact ih (mapSet m f0 false) f t h

/-- C10: an operation whose destination equals its own source is never the
operation reported as a `Conflict`: `check_iteration` marks the source as
vacated before it tests the destination against the pending map, so a
reported conflict always has `from` distinct from `to`. -/
theorem c10_reported_conflict_not_self (m : List (P × Bool)) (ops : List (P × P))
    (f t : P) (h : check_iteration m ops = CheckResult.conflict (f, t)) : f ≠ t :=
  checkGo_conflict_ne ops (resetTracker m) f t h

/-- Witness for C10: the unresolvable swap batch reports the conflict
`("a", "b")`, whose endpoints the theorem proves distinct. -/
theorem c10_reported_conflict_not_self_witness : ("a" : String) ≠ "b" :=
  c10_reported_conflict_not_self (DataTracker.new ["a", "b"])
    (orderOps Direction.forward ["a", "b"] ["b", "a"]) "a" "b" (by decide)

/-- C2 (divergence of src/main.rs from the claimed selection policy): on the
shift-up batch, `has_conflict` — the only check `main` runs — reports the
destination "01" and `main` exits before acting, even though the Reverse
order is accepted by `check_iteration`, so the spec's selection policy would
commit to Reverse instead of failing.  The batch therefore fails without the
Reverse order ever being validated and without a `MultimodeConflict` (which
no code in src/ ever constructs). -/
theorem c2_main_skips_reverse_order :
    has_conflict ["00", "01", "02"] ["01", "02", "03"] = some "01"
    ∧ check_iteration (DataTracker.new ["00", "01", "02"])
        (orderOps Direction.reverse ["00", "01", "02"] ["01", "02", "03"])
        = CheckResult.ok
    ∧ selectOrder ["00", "01", "02"] ["01", "02", "03"] = OrderSelection.reverse := by
  decide

/-- C7: verdicts of the dry-run validation on the three canonical batches:
shift-up rejects Forward (at operation ("00", "01")) and accepts Reverse;
shift-down accepts Forward and rejects Reverse (at ("03", "02")); the swap
batch rejects both, and the (spec-modelled) selection policy reports the
compound `MultimodeConflict` carrying the forward conflict ("a", "b") and
the reverse conflict ("b", "a"). -/
theorem c7_canonical_batches :
    check_iteration (DataTracker.new ["00", "01", "02"])
        (orderOps Direction.forward ["00", "01", "02"] ["01", "02", "03"])
        = CheckResult.conflict ("00", "01")
    ∧ check_iteration (DataTracker.new ["00", "01", "02"])
        (orderOps Direction.reverse ["00", "01", "02"] ["01", "02", "03"])
        = CheckResult.ok
    ∧ check_iteration (DataTracker.new ["01", "02", "03"])
        (orderOps Direction.forward ["01", "02", "03"] ["00", "01", "02"])
        = CheckResult.ok
    ∧ check_iteration (DataTracker.new ["01", "02", "03"])
        (orderOps Direction.reverse ["01", "02", "03"] ["00", "01", "02"])
        = CheckResult.conflict ("03", "02")
    ∧ check_iteration (DataTracker.new ["a", "b"])
        (orderOps Direction.forward ["a", "b"] ["b", "a"])
        = CheckResult.conflict ("a", "b")
    ∧ check_iteration (DataTracker.new ["a", "b"])
        (orderOps Direction.reverse ["a", "b"] ["b", "a"])
        = CheckResult.conflict ("b", "a")
    ∧ selectOrder ["a", "b"] ["b", "a"]
        = OrderSelection.multi ("a", "b") ("b", "a") := by
  decide

/-! ## Template compiler (src/template.rs)

The parser scans with
`captures_iter` of the pattern "[^\x5c\x5c]?(\x7b([FfNnOo0])(:\x5cd+)?\x7d)".
Group 1 is a brace token: an opening brace, one specifier character from
`FfNnOo0`, an optional colon-plus-digits width, and a closing brace.  The
leading "[^\x5c\x5c]?" is an *optional* single character: at a search
position immediately preceding a token it can always match empty, so it
never prevents a token from being found (in particular a backslash before a
token does not escape it), and when it does consume a character that
character lies before group 1's start, i.e. inside the span the parser later
emits as a `Literal`.  The `captures_iter` loop therefore visits exactly the
left-to-right non-overlapping occurrences of group 1, which is what the
scanner below computes directly: at each position, either a token starts
there and is consumed whole, or the character joins the nearest `Literal`.
The `_ => ()` arm of the specifier `match` in `TemplateParser::parse` is
unreachable because group 2 of the regex only ever matches the seven
recognized characters; the scanner encodes this by only yielding tokens
whose specifier satisfies `isSpec`. -/

/-- A compiled template piece: `Segment` of src/template.rs. -/
inductive Segment where
  | Literal (s : List Char)
  | Numeric (width : Nat)
  | Filename (width : Nat)
deriving DecidableEq

/-- An opening brace, written by code. -/
def lbrace : Char := '\x7b'

/-- A closing brace, written by code. -/
def rbrace : Char := '\x7d'

/-- Specifier characters selecting a numeric segment ("0" | "n" | "N"). -/
def numericSpec (c : Char) : Bool :=
  c == '0' || c == 'n' || c == 'N'

/-- Specifier characters selecting a filename segment ("o" | "O" | "f" | "F"). -/
def filenameSpec (c : Char) : Bool :=
  c == 'o' || c == 'O' || c == 'f' || c == 'F'

/-- The character class `[FfNnOo0]` of group 2 of the scanning regex. -/
def isSpec (c : Char) : Bool :=
  numericSpec c || filenameSpec c

/-- Largest value of a 64-bit `usize`. -/
def USIZE_MAX : Nat := 2 ^ 64 - 1

/-- Numeric value of a digit string. -/
def digitsToNat (ds : List Char) : Nat :=
  ds.foldl (fun acc c => acc * 10 + (c.toNat - '0'.toNat)) 0

/-- `Formatter::quantifier`: the width of a token.  An absent quantifier
group means width 1; a present group is parsed as `usize`, and a parse
failure — for digits exceeding `usize::MAX` — falls back to 1 via
`unwrap_or(1)`. -/
def quantVal : Option (List Char) → Nat
  | none => 1
  | some ds => if digitsToNat ds ≤ USIZE_MAX then digitsToNat ds else 1

/-- The specifier `match` of `TemplateParser::parse` for a recognized
specifier: `"0" | "n" | "N"` pushes `Numeric`, the rest of `[FfNnOo0]`
pushes `Filename`. -/
def mkSegment (c : Char) (q : Option (List Char)) : Segment :=
  if numericSpec c = true then Segment.Numeric (quantVal q)
  else Segment.Filename (quantVal q)

/-- Width-quantifier tail of a token: after "{X:", the regex requires one or
more digits followed by the closing brace.  `rest2.takeWhile` and
`rest2.dropWhile` mirror the maximal `\x5cd+` match. -/
def parseQuant (sp : Char) (rest2 : List Char) : Option (Char × Option (List Char) × List Char) :=
  if rest2.takeWhile Char.isDigit = ([] : List Char) then none
  else
    match rest2.dropWhile Char.isDigit with
    | c :: rem => if c = rbrace then some (sp, some (rest2.takeWhile Char.isDigit), rem) else none
    | [] => none

/-- Remainder of a token after "{X": either the closing brace immediately,
or a colon and a width quantifier. -/
def tokenTail (sp : Char) (rest : List Char) : Option (Char × Option (List Char) × List Char) :=
  match rest with
  | c :: rest2 =>
    if c = rbrace then some (sp, none, rest2)
    else if c = ':' then parseQuant sp rest2
    else none
  | [] => none

/-- Token occurrence test at the head of the input: group 1 of the scanning
regex.  Yields the specifier, the quantifier digits (if any) and the
remaining input after the token. -/
def tokenAt (l : List Char) : Option (Char × Option (List Char) × List Char) :=
  match l with
  | c0 :: c1 :: rest =>
    if c0 = lbrace ∧ isSpec c1 = true then tokenTail c1 rest else none
  | _ => none

/-- Original text of a token, reconstructed from its parts. -/
def tokenText (sp : Char) (q : Option (List Char)) : List Char :=
  match q with
  | none => [lbrace, sp, rbrace]
  | some ds => lbrace :: sp :: ':' :: (ds ++ [rbrace])

/-- Prepends a non-token character to the nearest literal: this realizes
"every character not inside a recognized token becomes part of the nearest
Literal segment", matching the `template[left..start]` pushes of the source
(literals are maximal, non-empty and never adjacent). -/
def consLit (c : Char) : List Segment → List Segment
  | Segment.Literal s :: segs => Segment.Literal (c :: s) :: segs
  | segs => Segment.Literal [c] :: segs

/-- The scan of `TemplateParser::parse`.  The fuel argument is only a
structural-recursion bound: every step consumes at least one input
character and one unit of fuel, so with fuel at least the input length the
fuel never runs out. -/
def parseGo : Nat → List Char → List Segment
  | 0, _ => []
  | _ + 1, [] => []
  | fuel + 1, c :: rest =>
    match tokenAt (c :: rest) with
    | some (sp, q, rem) => mkSegment sp q :: parseGo fuel rem
    | none => consLit c (parseGo fuel rest)

/-- `TemplateParser::parse`: the segments of a template string. -/
def parseTemplate (l : List Char) : List Segment :=
  parseGo l.length l

/-- The token substrings of a template, in scan order (same recursion as
`parseGo`). -/
def tokenTextsGo : Nat → List Char → List (List Char)
  | 0, _ => []
  | _ + 1, [] => []
  | fuel + 1, c :: rest =>
    match tokenAt (c :: rest) with
    | some (sp, q, rem) => tokenText sp q :: tokenTextsGo fuel rem
    | none => tokenTextsGo fuel rest

/-- Token substrings of a template. -/
def tokenTexts (l : List Char) : List (List Char) :=
  tokenTextsGo l.length l

/-- Interleaves literal text with the original token substrings: each
`Literal` contributes its text, each token segment consumes the next token
substring. -/
def rebuild : List Segment → List (List Char) → List Char
  | [], _ => []
  | Segment.Literal s :: segs, toks => s ++ rebuild segs toks
  | _ :: segs, [] => rebuild segs []
  | _ :: segs, tk :: toks => tk ++ rebuild segs toks

theorem tokenAt_text (l : List Char) (sp : Char) (q : Option (List Char))
    (rem : List Char) (h : tokenAt l = some (sp, q, rem)) :
    l = tokenText sp q ++ rem := by
  match l with
  | [] => exact Option.noConfusion h
  | [c0] => exact Option.noConfusion h
  | c0 :: c1 :: rest =>
    have h2 : (if c0 = lbrace ∧ isSpec c1 = true then tokenTail c1 rest else none)
        = some (sp, q, rem) := h
    split at h2
    case isFalse => exact Option.noConfusion h2
    case isTrue hif =>
    obtain ⟨hc0, -⟩ := hif
    subst hc0
    match rest with
    | [] => exact Option.noConfusion h2
    | c :: rest2 =>
      have h3 : (if c = rbrace then some (c1, none, rest2)
          else if c = ':' then parseQuant c1 rest2 else none) = some (sp, q, rem) := h2
      split at h3
      case isTrue hcr =>
        subst hcr
        simp only [Option.some.injEq, Prod.mk.injEq] at h3
        obtain ⟨hsp, hq, hrem⟩ := h3
        subst hsp
        subst hq
        subst hrem
        rfl
      case isFalse hcr =>
      split at h3
      case isFalse => exact Option.noConfusion h3
      case isTrue hcc =>
      subst hcc
      simp only [parseQuant] at h3
      split at h3
      case isTrue => exact Option.noConfusion h3
      case isFalse hne =>
      split at h3
      case h_2 => exact Option.noConfusion h3
      case h_1 d rem2 hdw =>
      split at h3
      case isFalse => exact Option.noConfusion h3
      case isTrue hdr =>
      subst hdr
      simp only [Option.some.injEq, Prod.mk.injEq] at h3
      obtain ⟨hsp, hq, hrem⟩ := h3
      subst hsp
      subst hq
      subst hrem
      have hsplit : rest2 = rest2.takeWhile Char.isDigit ++ rbrace :: rem2 := by
        conv_lhs => rw [← List.takeWhile_append_dropWhile (p := Char.isDigit) (l := rest2)]
        rw [hdw]
      conv_lhs => rw [hsplit]
      simp [tokenText]

theorem tokenText_length_pos (sp : Char) (q : Option (List Char)) :
    0 < (tokenText sp q).length := by
  cases q <;> simp [tokenText]

theorem tokenAt_length (l : List Char) (sp : Char) (q : Option (List Char))
    (rem : List Char) (h : tokenAt l = some (sp, q, rem)) :
    rem.length < l.length := by
  have htext := tokenAt_text l sp q rem h
  have := tokenText_length_pos sp q
  rw [htext, List.length_append]
  omega

theorem rebuild_consLit (segs : List Segment) (toks : List (List Char)) (c : Char) :
    rebuild (consLit c segs) toks = c :: rebuild segs toks := by
  match segs with
  | [] => cases toks <;> rfl
  | Segment.Literal s :: segs2 => cases toks <;> rfl
  | Segment.Numeric w :: segs2 => cases toks <;> rfl
  | Segment.Filename w :: segs2 => cases toks <;> rfl

theorem rebuild_mkSegment (sp : Char) (q : Option (List Char))
    (segs : List Segment) (tk : List Char) (toks : List (List Char)) :
    rebuild (mkSegment sp q :: segs) (tk :: toks) = tk ++ rebuild segs toks := by
  rw [mkSegment]
  split <;> rfl

theorem rebuild_parseGo (fuel : Nat) :
    ∀ l : List Char, l.length ≤ fuel →
      rebuild (parseGo fuel l) (tokenTextsGo fuel l) = l := by
  induction fuel with
  | zero =>
    intro l h
    have : l = [] := List.eq_nil_of_length_eq_zero (Nat.le_zero.mp h)
    subst this
    rfl
  | succ fuel ih =>
    intro l h
    match l with
    | [] => rfl
    | c :: rest =>
      cases htok : tokenAt (c :: rest) with
      | none =>
        have hp : parseGo (fuel + 1) (c :: rest) = consLit c (parseGo fuel rest) := by
          rw [show parseGo (fuel + 1) (c :: rest)
              = (match tokenAt (c :: rest) with
                 | some (sp, q, rem) => mkSegment sp q :: parseGo fuel rem
                 | none => consLit c (parseGo fuel rest)) from rfl, htok]
        have ht : tokenTextsGo (fuel + 1) (c :: rest) = tokenTextsGo fuel rest := by
          rw [show tokenTextsGo (fuel + 1) (c :: rest)
              = (match tokenAt (c :: rest) with
                 | some (sp, q, rem) => tokenText sp q :: tokenTextsGo fuel rem
                 | none => tokenTextsGo fuel rest) from rfl, htok]
        rw [hp, ht, rebuild_consLit]
        have hlen : rest.length ≤ fuel := by
          simp only [List.length_cons] at h
          omega
        rw [ih rest hlen]
      | some x =>
        obtain ⟨sp, q, rem⟩ := x
        have hp : parseGo (fuel + 1) (c :: rest) = mkSegment sp q :: parseGo fuel rem := by
          rw [show parseGo (fuel + 1) (c :: rest)
              = (match tokenAt (c :: rest) with
                 | some (sp, q, rem) => mkSegment sp q :: parseGo fuel rem
                 | none => consLit c (parseGo fuel rest)) from rfl, htok]
        have ht : tokenTextsGo (fuel + 1) (c :: rest)
            = tokenText sp q :: tokenTextsGo fuel rem := by
          rw [show tokenTextsGo (fuel + 1) (c :: rest)
              = (match tokenAt (c :: rest) with
                 | some (sp, q, rem) => tokenText sp q :: tokenTextsGo fuel rem
                 | none => tokenTextsGo fuel rest) from rfl, htok]
        have hlen : rem.length ≤ fuel := by
          have := tokenAt_length (c :: rest) sp q rem htok
          simp only [List.length_cons] at this h
          omega
        rw [hp, ht, rebuild_mkSegment, ih rem hlen]
        exact (tokenAt_text (c :: rest) sp q rem htok).symm

/-- C9: the compiled segments cover the whole template in order with no
overlaps and no gaps: interleaving the Literal texts with the original
token substrings, in segment order, reconstructs the input string (so every
character outside a recognized token sits in a Literal segment). -/
theorem c9_segments_reconstruct (tpl : List Char) :
    rebuild (parseTemplate tpl) (tokenTexts tpl) = tpl :=
  rebuild_parseGo tpl.length tpl (le_refl tpl.length)

/-- C4 counterexample: the token "{x}" has an unrecognized specifier, and
its literal text is *not* dropped — it survives inside a Literal segment of
the compiled template, contradicting the claim. -/
theorem c4_counterexample :
    Segment.Literal [lbrace, 'x', rbrace] ∈ parseTemplate [lbrace, 'x', rbrace] := by
  decide

/-- C4 amended: a brace token whose specifier is not one of the recognized
characters is not recognized as a token at all: compiling produces no
Numeric or Filename segment for it, and its text is preserved verbatim
inside a Literal segment (rather than dropped).  Shown for a lone token and
for a token embedded between literal text and a recognized token. -/
theorem c4_unrecognized_token_stays_literal :
    (∀ c : Char, isSpec c = false →
      parseTemplate [lbrace, c, rbrace] = [Segment.Literal [lbrace, c, rbrace]])
    ∧ parseTemplate ('a' :: lbrace :: 'x' :: rbrace :: 'b' :: lbrace :: 'n' :: rbrace :: [])
      = [Segment.Literal ['a', lbrace, 'x', rbrace, 'b'], Segment.Numeric 1] := by
  constructor
  · intro c h
    have h1 : tokenAt (lbrace :: c :: rbrace :: []) = none := by
      rw [show tokenAt (lbrace :: c :: rbrace :: [])
          = (if lbrace = lbrace ∧ isSpec c = true then tokenTail c (rbrace :: []) else none)
          from rfl]
      rw [if_neg]
      rintro ⟨-, hc⟩
      rw [h] at hc
      exact Bool.noConfusion hc
    have h2 : tokenAt (c :: rbrace :: []) = none := by
      rw [show tokenAt (c :: rbrace :: [])
          = (if c = lbrace ∧ isSpec rbrace = true then tokenTail rbrace [] else none)
          from rfl]
      rw [if_neg]
      rintro ⟨-, hc⟩
      exact absurd hc (by decide)
    have hp1 : parseTemplate [lbrace, c, rbrace]
        = consLit lbrace (parseGo 2 (c :: rbrace :: [])) := by
      rw [show parseTemplate [lbrace, c, rbrace] = parseGo 3 (lbrace :: c :: rbrace :: [])
          from rfl]
      rw [show parseGo 3 (lbrace :: c :: rbrace :: [])
          = (match tokenAt (lbrace :: c :: rbrace :: []) with
             | some (sp, q, rem) => mkSegment sp q :: parseGo 2 rem
             | none => consLit lbrace (parseGo 2 (c :: rbrace :: []))) from rfl, h1]
    have hp2 : parseGo 2 (c :: rbrace :: []) = consLit c [Segment.Literal [rbrace]] := by
      rw [show parseGo 2 (c :: rbrace :: [])
          = (match tokenAt (c :: rbrace :: []) with
             | some (sp, q, rem) => mkSegment sp q :: parseGo 1 rem
             | none => consLit c (parseGo 1 (rbrace :: []))) from rfl, h2]
      rfl
    rw [hp1, hp2]
    rfl
  · decide

/-- Witness for C4: the amended statement applied at the concrete
unrecognized specifier "x". -/
theorem c4_unrecognized_token_stays_literal_witness :
    parseTemplate [lbrace, 'x', rbrace] = [Segment.Literal [lbrace, 'x', rbrace]] :=
  c4_unrecognized_token_stays_literal.1 'x' (by decide)

/-! ## Rendering (src/rename.rs) -/

/-- Decimal digit list of a number, most significant first: the text
`format!` produces for an unsigned integer.  The fuel argument is a
structural-recursion bound; any fuel exceeding the number is enough, since
the value shrinks by a factor of ten every step. -/
def natReprGo : Nat → Nat → List Char
  | 0, _ => []
  | fuel + 1, n =>
    if n < 10 then [Nat.digitChar n]
    else natReprGo fuel (n / 10) ++ [Nat.digitChar (n % 10)]

/-- Decimal representation of `n`. -/
def natRepr (n : Nat) : List Char :=
  natReprGo (n + 1) n

/-- Number of decimal digits of `n` (1 for 0). -/
def numDigits (n : Nat) : Nat :=
  (natRepr n).length

/-- Rendering of `write!(f, "{:0width$}", idx)`: left-pad the decimal text
with zeros up to the requested width, never truncating. -/
def zeroPad (w n : Nat) : List Char :=
  List.replicate (w - (natRepr n).length) '0' ++ natRepr n

/-- Loop of `get_width`: the `iter::successors` chain of pairs
`(width, witness)` starting at `(1, 10)`, where the next witness exists only
while `checked_mul(10)` does not overflow `usize`, searched for the first
witness exceeding the count.  The fuel argument is a structural-recursion
bound; it is never exhausted, because starting from witness 10 the
`checked_mul` guard stops the chain after at most 19 steps, and every call
below passes fuel 64. -/
def getWidthGo (c : Nat) : Nat → Nat → Nat → Option Nat
  | 0, _, _ => none
  | fuel + 1, w, wit =>
    if c < wit then some w
    else if wit * 10 ≤ USIZE_MAX then getWidthGo c fuel (w + 1) (wit * 10)
    else none

/-- `get_width` of src/rename.rs: the computed minimum numeric width for a
batch of known size. -/
def get_width : Option Nat → Option Nat
  | none => none
  | some c => getWidthGo c 64 1 10

/-- Type of the `Regex::captures` interface the renamer consumes: a capture
attempt takes the text and either fails or yields the capture groups, group
0 being the whole match.  The regex engine itself is an external crate, so
the renamer is embedded relative to this interface. -/
def CapFun : Type := List Char → Option (Nat → Option (List Char))

/-- `RenameContext::extract_name`: if a pattern is configured and captures
the text, substitute group 1 if it participated, else group 0; otherwise
keep the text. -/
def extract_name (pat : Option CapFun) (text : List Char) : List Char :=
  match pat with
  | none => text
  | some cap =>
    match cap text with
    | none => text
    | some gs =>
      match gs 1 with
      | some s => s
      | none =>
        match gs 0 with
        | some s => s
        | none => text

/-- Rust string slicing `&name[..n]`: the first `n` bytes, or a panic when
`n` exceeds the length (modelled as `none`).  Byte positions equal character
positions here because names are modelled as character lists; the char-
boundary panic of multi-byte text is outside this ASCII embedding. -/
def sliceTo (s : List Char) (n : Nat) : Option (List Char) :=
  if n ≤ s.length then some (s.take n) else none

/-- `RenameContext::format_filename`: emit the extracted stem whole for
width 1, otherwise slice it to the requested width. -/
def format_filename (pat : Option CapFun) (stem : List Char) (w : Nat) : Option (List Char) :=
  match w with
  | 1 => some (extract_name pat stem)
  | n => sliceTo (extract_name pat stem) n

/-- One arm of the `Display` impl for `RenameContext`: a `Literal` emits its
text, a `Numeric` zero-pads the index to the larger of the segment width and
the computed width (`self.width.unwrap_or_default()`), a `Filename` runs
`format_filename`. -/
def renderSegment (idx : Nat) (cw : Option Nat) (pat : Option CapFun)
    (stem : List Char) : Segment → Option (List Char)
  | Segment.Literal s => some s
  | Segment.Numeric w => some (zeroPad (max w (cw.getD 0)) idx)
  | Segment.Filename w => format_filename pat stem w

/-- The whole `Display` impl: segments rendered left to right, the first
failure aborting the rest. -/
def renderSegments (idx : Nat) (cw : Option Nat) (pat : Option CapFun)
    (stem : List Char) : List Segment → Option (List Char)
  | [] => some []
  | seg :: segs =>
    match renderSegment idx cw pat stem seg with
    | none => none
    | some s =>
      match renderSegments idx cw pat stem segs with
      | none => none
      | some r => some (s ++ r)

/-! ## Path stem and extension (std::path semantics used by Renamer::rename)

A path is modelled by its file name as a character list; `Renamer::rename`
only rewrites the file name, the parent directory passes through unchanged.
Rust splits a file name at its *last* dot, except that a dot at position 0
(a leading-dot "hidden" name with no further dot) yields no extension. -/

/-- Test used to scan for the last dot. -/
def notDot (c : Char) : Bool := decide (c ≠ '.')

/-- Splits a file name at its last dot: `some (before, after)` when a dot
exists, `none` otherwise. -/
def splitLastDot (s : List Char) : Option (List Char × List Char) :=
  match s.reverse.dropWhile notDot with
  | [] => none
  | _ :: preRev => some (preRev.reverse, (s.reverse.takeWhile notDot).reverse)

/-- `Path::extension`: the part after the last dot, unless the part before
it is empty. -/
def extension (s : List Char) : Option (List Char) :=
  match splitLastDot s with
  | none => none
  | some (pre, suf) => if pre = [] then none else some suf

/-- `Path::file_stem`: the part before the last dot, or the whole name. -/
def fileStem (s : List Char) : List Char :=
  match splitLastDot s with
  | none => s
  | some (pre, _suf) => if pre = [] then s else pre

/-- `PathBuf::set_extension`: truncate the current extension and append the
new one (appending nothing for an empty extension). -/
def setExtension (s e : List Char) : List Char :=
  if e = [] then fileStem s else fileStem s ++ '.' :: e

/-- `Renamer::rename` on file names: the rendered stem replaces the file
name (`path.with_file_name(stem)`), then the source extension, if any, is
re-applied with `set_extension`. -/
def renameFile (src rendered : List Char) : List Char :=
  match extension src with
  | none => rendered
  | some e => setExtension rendered e

/-! ## Digit-count lemmas -/

theorem natReprGo_eq_natRepr (n : Nat) :
    ∀ fuel, n < fuel → natReprGo fuel n = natRepr n := by
  induction n using Nat.strong_induction_on with
  | _ n ih =>
    intro fuel hf
    match fuel with
    | f + 1 =>
      by_cases h10 : n < 10
      · rw [show natReprGo (f + 1) n = (if n < 10 then [Nat.digitChar n]
            else natReprGo f (n / 10) ++ [Nat.digitChar (n % 10)]) from rfl, if_pos h10]
        rw [show natRepr n = (if n < 10 then [Nat.digitChar n]
            else natReprGo n (n / 10) ++ [Nat.digitChar (n % 10)]) from rfl, if_pos h10]
      · have hdiv : n / 10 < n := Nat.div_lt_self (by omega) (by omega)
        rw [show natReprGo (f + 1) n = (if n < 10 then [Nat.digitChar n]
            else natReprGo f (n / 10) ++ [Nat.digitChar (n % 10)]) from rfl, if_neg h10]
        rw [show natRepr n = (if n < 10 then [Nat.digitChar n]
            else natReprGo n (n / 10) ++ [Nat.digitChar (n % 10)]) from rfl, if_neg h10]
        rw [ih (n / 10) hdiv f (by omega), ih (n / 10) hdiv n hdiv]

theorem natRepr_unfold (n : Nat) :
    natRepr n = if n < 10 then [Nat.digitChar n]
      else natRepr (n / 10) ++ [Nat.digitChar (n % 10)] := by
  by_cases h10 : n < 10
  · rw [if_pos h10]
    rw [show natRepr n = (if n < 10 then [Nat.digitChar n]
        else natReprGo n (n / 10) ++ [Nat.digitChar (n % 10)]) from rfl, if_pos h10]
  · have hdiv : n / 10 < n := Nat.div_lt_self (by omega) (by omega)
    rw [if_neg h10]
    rw [show natRepr n = (if n < 10 then [Nat.digitChar n]
        else natReprGo n (n / 10) ++ [Nat.digitChar (n % 10)]) from rfl, if_neg h10]
    rw [natReprGo_eq_natRepr (n / 10) n hdiv]

theorem numDigits_lt10 (n : Nat) (h : n < 10) : numDigits n = 1 := by
  rw [numDigits, natRepr_unfold, if_pos h]
  rfl

theorem numDigits_unfold (n : Nat) (h : ¬ n < 10) :
    numDigits n = numDigits (n / 10) + 1 := by
  rw [numDigits, natRepr_unfold, if_neg h, List.length_append]
  rfl

theorem numDigits_pos (n : Nat) : 1 ≤ numDigits n := by
  by_cases h : n < 10
  · rw [numDigits_lt10 n h]
  · rw [numDigits_unfold n h]
    omega

theorem lt_pow_numDigits (n : Nat) : n < 10 ^ numDigits n := by
  induction n using Nat.strong_induction_on with
  | _ n ih =>
    by_cases h10 : n < 10
    · rw [numDigits_lt10 n h10]
      omega
    · have hdiv : n / 10 < n := Nat.div_lt_self (by omega) (by omega)
      have hq := ih (n / 10) hdiv
      rw [numDigits_unfold n h10, pow_succ]
      omega

theorem numDigits_le (n : Nat) : ∀ w, 1 ≤ w → n < 10 ^ w → numDigits n ≤ w := by
  induction n using Nat.strong_induction_on with
  | _ n ih =>
    intro w h2 h1
    by_cases h10 : n < 10
    · rw [numDigits_lt10 n h10]
      exact h2
    · have hdiv : n / 10 < n := Nat.div_lt_self (by omega) (by omega)
      have hw2 : 2 ≤ w := by
        by_contra hc
        have hw1 : w = 1 := by omega
        rw [hw1] at h1
        omega
      have hpow : 10 ^ w = 10 ^ (w - 1) * 10 := by
        rw [← pow_succ]
        congr 1
        omega
      have hq : n / 10 < 10 ^ (w - 1) := by
        rw [hpow] at h1
        omega
      have := ih (n / 10) hdiv (w - 1) (by omega) hq
      rw [numDigits_unfold n h10]
      omega

theorem lt_numDigits_of_pow_le (n w : Nat) (h : 10 ^ w ≤ n) :
    w < numDigits n := by
  by_contra hc
  push_neg at hc
  have h1 := lt_pow_numDigits n
  have h2 : (10 : Nat) ^ numDigits n ≤ 10 ^ w := Nat.pow_le_pow_right (by omega) hc
  omega

theorem zeroPad_length (w n : Nat) :
    (zeroPad w n).length = max w (numDigits n) := by
  rw [zeroPad, List.length_append, List.length_replicate, ← numDigits]
  omega

theorem getWidthGo_correct (c : Nat) (hc : c < 10 ^ 19) :
    ∀ fuel w, 1 ≤ w → w ≤ numDigits c → numDigits c < w + fuel →
      getWidthGo c fuel w (10 ^ w) = some (numDigits c) := by
  intro fuel
  induction fuel with
  | zero =>
    intro w _ h2 h3
    omega
  | succ fuel ih =>
    intro w h1 h2 h3
    rw [show getWidthGo c (fuel + 1) w (10 ^ w)
        = (if c < 10 ^ w then some w
           else if 10 ^ w * 10 ≤ USIZE_MAX then getWidthGo c fuel (w + 1) (10 ^ w * 10)
           else none) from rfl]
    by_cases hlt : c < 10 ^ w
    · rw [if_pos hlt]
      have := numDigits_le c w h1 hlt
      have hw : w = numDigits c := by omega
      rw [hw]
    · rw [if_neg hlt]
      push_neg at hlt
      have hwlt : w < numDigits c := lt_numDigits_of_pow_le c w hlt
      have hw19 : w < 19 := by
        have hp : (10 : Nat) ^ w < 10 ^ 19 := by omega
        exact (Nat.pow_lt_pow_iff_right (by omega)).mp hp
      have hmul : 10 ^ w * 10 ≤ USIZE_MAX := by
        have h1' : (10 : Nat) ^ w * 10 = 10 ^ (w + 1) := (pow_succ 10 w).symm
        have h2' : (10 : Nat) ^ (w + 1) ≤ 10 ^ 19 := Nat.pow_le_pow_right (by omega) (by omega)
        have h3' : (10 : Nat) ^ 19 ≤ USIZE_MAX := by decide
        omega
      rw [if_pos hmul, ← pow_succ]
      exact ih (w + 1) (by omega) (by omega) (by omega)

theorem get_width_eq (c : Nat) (hc : c < 10 ^ 19) :
    get_width (some c) = some (numDigits c) := by
  have hd : numDigits c ≤ 19 := numDigits_le c 19 (by omega) hc
  have h := getWidthGo_correct c hc 64 1 (by omega) (numDigits_pos c) (by omega)
  rw [show get_width (some c) = getWidthGo c 64 1 10 from rfl,
    show (10 : Nat) = 10 ^ 1 by norm_num]
  exact h

/-! ## C3: numeric width -/

/-- C3 counterexample: for a batch of 10 items starting at index 95 with
explicit width 1, the first index renders as two characters, while the
claim's formula `max(W, digits(start + count - 1))` demands three: the
computed width depends on the count alone, not on `start + count - 1`. -/
theorem c3_counterexample :
    renderSegment 95 (get_width (some 10)) none [] (Segment.Numeric 1)
      = some (zeroPad 2 95)
    ∧ (zeroPad 2 95).length = 2
    ∧ max 1 (numDigits (95 + 10 - 1)) = 3 := by
  decide

/-- C3 amended: when the total count is known, the computed width is the
minimum number of digits needed to print `count` itself (not
`start + count - 1`); a Numeric segment of explicit width `W` then renders
index `n` zero-padded to `max(W, digits(count))` characters, which the
format never truncates, so the rendered length is
`max(W, digits(count), digits(n))`. -/
theorem c3_numeric_width (count W n : Nat) (hc : count < 10 ^ 19)
    (pat : Option CapFun) (stem : List Char) :
    renderSegment n (get_width (some count)) pat stem (Segment.Numeric W)
      = some (zeroPad (max W (numDigits count)) n)
    ∧ (zeroPad (max W (numDigits count)) n).length
      = max W (max (numDigits count) (numDigits n)) := by
  constructor
  · rw [show renderSegment n (get_width (some count)) pat stem (Segment.Numeric W)
        = some (zeroPad (max W ((get_width (some count)).getD 0)) n) from rfl,
      get_width_eq count hc]
    rfl
  · rw [zeroPad_length]
    omega

/-- Witness for C3: the amended statement at count 10, width 1, index 95. -/
theorem c3_numeric_width_witness :
    renderSegment 95 (get_width (some 10)) none [] (Segment.Numeric 1)
      = some (zeroPad (max 1 (numDigits 10)) 95)
    ∧ (zeroPad (max 1 (numDigits 10)) 95).length
      = max 1 (max (numDigits 10) (numDigits 95)) :=
  c3_numeric_width 10 1 95 (by norm_num) none []

/-! ## C5: filename segments -/

/-- C5 counterexample: a Filename segment of width 3 applied to the
two-character stem "ab" does not render — `&name[..3]` panics — so the
rendering does have a failure mode, contradicting the claim. -/
theorem c5_counterexample : format_filename none ['a', 'b'] 3 = none := by
  decide

theorem format_filename_ne_one (pat : Option CapFun) (stem : List Char)
    (w : Nat) (h : w ≠ 1) :
    format_filename pat stem w = sliceTo (extract_name pat stem) w := by
  match w with
  | 0 => rfl
  | 1 => exact absurd rfl h
  | n + 2 => rfl

/-- C5 amended: a Filename segment of width `w` emits the whole extracted
stem when `w = 1`, and the stem truncated to `w` characters when `w ≠ 1`
and the stem has at least `w` characters; but when the extracted stem is
shorter than `w` (with `w ≠ 1`) the rendering fails — the slice
`&name[..w]` panics. -/
theorem c5_filename_truncation (pat : Option CapFun) (stem : List Char) (w : Nat) :
    (w = 1 → format_filename pat stem w = some (extract_name pat stem))
    ∧ (w ≠ 1 → w ≤ (extract_name pat stem).length →
        format_filename pat stem w = some ((extract_name pat stem).take w))
    ∧ (w ≠ 1 → (extract_name pat stem).length < w →
        format_filename pat stem w = none) := by
  refine ⟨?_, ?_, ?_⟩
  · intro hw
    subst hw
    rfl
  · intro hw hle
    rw [format_filename_ne_one pat stem w hw, sliceTo, if_pos hle]
  · intro hw hlt
    rw [format_filename_ne_one pat stem w hw, sliceTo, if_neg (by omega)]

/-- Witness for C5: truncation branch at stem "ab", width 2. -/
theorem c5_filename_truncation_witness :
    format_filename none ['a', 'b'] 2 = some ((extract_name none ['a', 'b']).take 2) :=
  (c5_filename_truncation none ['a', 'b'] 2).2.1 (by decide) (by decide)

/-! ## C6: extensions -/

theorem mem_takeWhile_pred {α : Type} (p : α → Bool) (l : List α) (x : α)
    (h : x ∈ l.takeWhile p) : p x = true := by
  induction l with
  | nil => cases h
  | cons a l ih =>
    rw [List.takeWhile_cons] at h
    by_cases hp : p a = true
    · rw [if_pos hp] at h
      cases h with
      | head => exact hp
      | tail _ hm => exact ih hm
    · rw [if_neg hp] at h
      cases h

theorem dropWhile_all {α : Type} (p : α → Bool) (l : List α)
    (h : ∀ x ∈ l, p x = true) : l.dropWhile p = [] := by
  induction l with
  | nil => rfl
  | cons a l ih =>
    rw [List.dropWhile_cons, if_pos (h a (List.mem_cons_self a l))]
    exact ih (fun x hx => h x (List.mem_cons_of_mem a hx))

theorem takeWhile_middle {α : Type} (p : α → Bool) (xs ys : List α) (y : α)
    (hxs : ∀ x ∈ xs, p x = true) (hy : p y = false) :
    (xs ++ y :: ys).takeWhile p = xs ∧ (xs ++ y :: ys).dropWhile p = y :: ys := by
  induction xs with
  | nil =>
    rw [List.nil_append, List.takeWhile_cons, List.dropWhile_cons]
    rw [hy]
    exact ⟨rfl, rfl⟩
  | cons x xs ih =>
    have hx : p x = true := hxs x (List.mem_cons_self x xs)
    have ih2 := ih (fun z hz => hxs z (List.mem_cons_of_mem x hz))
    rw [List.cons_append, List.takeWhile_cons, List.dropWhile_cons, if_pos hx, hx]
    simp only [if_true]
    exact ⟨by rw [ih2.1], ih2.2⟩

theorem splitLastDot_no_dot (s : List Char) (h : ∀ c ∈ s, c ≠ '.') :
    splitLastDot s = none := by
  have hall : ∀ c ∈ s.reverse, notDot c = true := by
    intro c hc
    rw [notDot, decide_eq_true_iff]
    exact h c (List.mem_reverse.mp hc)
  rw [show splitLastDot s = (match s.reverse.dropWhile notDot with
      | [] => none
      | _ :: preRev => some (preRev.reverse, (s.reverse.takeWhile notDot).reverse)) from rfl,
    dropWhile_all notDot s.reverse hall]

theorem extension_no_dot_none (s : List Char) (h : ∀ c ∈ s, c ≠ '.') :
    extension s = none := by
  rw [show extension s = (match splitLastDot s with
      | none => none
      | some (pre, suf) => if pre = [] then none else some suf) from rfl,
    splitLastDot_no_dot s h]

theorem fileStem_no_dot (s : List Char) (h : ∀ c ∈ s, c ≠ '.') :
    fileStem s = s := by
  rw [show fileStem s = (match splitLastDot s with
      | none => s
      | some (pre, _suf) => if pre = [] then s else pre) from rfl,
    splitLastDot_no_dot s h]

theorem splitLastDot_append (a b : List Char) (hb : ∀ c ∈ b, c ≠ '.') :
    splitLastDot (a ++ '.' :: b) = some (a, b) := by
  have hrev : (a ++ '.' :: b).reverse = b.reverse ++ '.' :: a.reverse := by
    simp
  have hxs : ∀ c ∈ b.reverse, notDot c = true := by
    intro c hc
    rw [notDot, decide_eq_true_iff]
    exact hb c (List.mem_reverse.mp hc)
  have hy : notDot '.' = false := by decide
  have hmid := takeWhile_middle notDot b.reverse a.reverse '.' hxs hy
  rw [show splitLastDot (a ++ '.' :: b)
      = (match (a ++ '.' :: b).reverse.dropWhile notDot with
         | [] => none
         | _ :: preRev =>
           some (preRev.reverse, ((a ++ '.' :: b).reverse.takeWhile notDot).reverse))
      from rfl, hrev, hmid.1, hmid.2]
  simp

theorem extension_no_dot (s e : List Char) (h : extension s = some e) :
    ∀ c ∈ e, c ≠ '.' := by
  have h2 : (match splitLastDot s with
      | none => none
      | some (pre, suf) => if pre = [] then none else some suf) = some e := h
  split at h2
  · exact Option.noConfusion h2
  · rename_i pre suf hsp
    split at h2
    · exact Option.noConfusion h2
    · injection h2 with h3
      subst h3
      have h4 : (match s.reverse.dropWhile notDot with
          | [] => none
          | _ :: preRev => some (preRev.reverse, (s.reverse.takeWhile notDot).reverse))
          = some (pre, suf) := hsp
      split at h4
      · exact Option.noConfusion h4
      · rename_i d preRev hdw
        simp only [Option.some.injEq, Prod.mk.injEq] at h4
        obtain ⟨-, hsuf⟩ := h4
        intro c hc he
        rw [← hsuf] at hc
        have := mem_takeWhile_pred notDot s.reverse c (List.mem_reverse.mp hc)
        rw [notDot, decide_eq_true_iff] at this
        exact this he

/-- C6 counterexample: the template "a.b" is pure literal text, renders the
stem "a.b" for the extensionless source file name "file", and the resulting
destination "a.b" carries extension "b" while the source has none — so the
destination extension does not always equal the source extension. -/
theorem c6_counterexample :
    parseTemplate ('a' :: '.' :: 'b' :: []) = [Segment.Literal ['a', '.', 'b']]
    ∧ renderSegments 1 none none [] (parseTemplate ('a' :: '.' :: 'b' :: []))
      = some ['a', '.', 'b']
    ∧ renameFile ['f', 'i', 'l', 'e'] ['a', '.', 'b'] = ['a', '.', 'b']
    ∧ extension ['f', 'i', 'l', 'e'] = none
    ∧ extension ['a', '.', 'b'] = some ['b'] := by
  decide

/-- C6 amended: for a rendered stem that contains no dot and is non-empty,
and a source whose extension is not the empty string, the destination's
extension equals the source's extension and the destination's stem is
exactly the rendered stem. -/
theorem c6_extension_preserved (src rendered : List Char)
    (hdot : '.' ∉ rendered) (hne : rendered ≠ [])
    (hext : extension src ≠ some []) :
    extension (renameFile src rendered) = extension src
    ∧ fileStem (renameFile src rendered) = rendered := by
  have hall : ∀ c ∈ rendered, c ≠ '.' := by
    intro c hc he
    exact hdot (he ▸ hc)
  cases hext0 : extension src with
  | none =>
    have hrn : renameFile src rendered = rendered := by
      rw [show renameFile src rendered = (match extension src with
          | none => rendered
          | some e => setExtension rendered e) from rfl, hext0]
    rw [hrn, extension_no_dot_none rendered hall, fileStem_no_dot rendered hall]
    exact ⟨rfl, rfl⟩
  | some e =>
    have hee : e ≠ [] := by
      intro hc
      subst hc
      exact hext hext0
    have hend : ∀ c ∈ e, c ≠ '.' := extension_no_dot src e hext0
    have hrn : renameFile src rendered = rendered ++ '.' :: e := by
      rw [show renameFile src rendered = (match extension src with
          | none => rendered
          | some e2 => setExtension rendered e2) from rfl, hext0]
      show setExtension rendered e = rendered ++ '.' :: e
      rw [show setExtension rendered e
          = (if e = [] then fileStem rendered else fileStem rendered ++ '.' :: e)
          from rfl, if_neg hee, fileStem_no_dot rendered hall]
    have hsp : splitLastDot (rendered ++ '.' :: e) = some (rendered, e) :=
      splitLastDot_append rendered e hend
    constructor
    · rw [hrn, show extension (rendered ++ '.' :: e)
          = (match splitLastDot (rendered ++ '.' :: e) with
             | none => none
             | some (pre, suf) => if pre = [] then none else some suf) from rfl,
        hsp]
      show (if rendered = [] then none else some e) = some e
      rw [if_neg hne]
    · rw [hrn, show fileStem (rendered ++ '.' :: e)
          = (match splitLastDot (rendered ++ '.' :: e) with
             | none => rendered ++ '.' :: e
             | some (pre, _suf) => if pre = [] then rendered ++ '.' :: e else pre)
          from rfl, hsp]
      show (if rendered = [] then rendered ++ '.' :: e else rendered) = rendered
      rw [if_neg hne]

/-- Witness for C6: the amended statement at source "f.t" and rendered stem
"x". -/
theorem c6_extension_preserved_witness :
    extension (renameFile ['f', '.', 't'] ['x']) = extension ['f', '.', 't']
    ∧ fileStem (renameFile ['f', '.', 't'] ['x']) = ['x'] :=
  c6_extension_preserved ['f', '.', 't'] ['x'] (by decide) (by decide) (by decide)

/-! ## C8: filename extraction

The extraction pattern is user input matched by the external regex crate, so
`extract_name` is settled against the `captures` interface; the concrete
pattern of the claim, "S\x5cd\x5cdE\x5cd\x5cd (.+)", is additionally given
its regex semantics directly: under leftmost-first matching the match
starts at the first position where `S`, two digits, `E`, two digits and a
space are followed by at least one character, group 0 runs from there to
the end of the text (the trailing `.+` is greedy) and group 1 is everything
after the space. -/

/-- Head test for the claim's pattern: does the text start with
"S", digit, digit, "E", digit, digit, space, and a non-empty tail? -/
def epHead : List Char → Option (List Char)
  | c0 :: c1 :: c2 :: c3 :: c4 :: c5 :: c6 :: tail =>
    if c0 = 'S' ∧ c1.isDigit = true ∧ c2.isDigit = true ∧ c3 = 'E'
        ∧ c4.isDigit = true ∧ c5.isDigit = true ∧ c6 = ' ' ∧ tail ≠ [] then
      some tail
    else none
  | _ => none

/-- Leftmost occurrence search for the claim's pattern: the first suffix
whose head matches; yields (whole match, group 1). -/
def findEp : List Char → Option (List Char × List Char)
  | [] => none
  | c :: rest =>
    match epHead (c :: rest) with
    | some tail => some (c :: rest, tail)
    | none => findEp rest

/-- The `captures` function of the claim's concrete pattern
"S\x5cd\x5cdE\x5cd\x5cd (.+)": group 0 is the whole match, group 1 the
single capture group, higher groups do not exist. -/
def epCaptures : CapFun := fun text =>
  (findEp text).map
    (fun m => fun n => if n = 0 then some m.1 else if n = 1 then some m.2 else none)

/-- C8: `extract_name` substitutes the first capture group when the pattern
matched and the group participated, the entire match when the pattern
matched without a group-1 capture, and the raw stem when the pattern did
not match; and for the stem "Highlander S05E01 Prophecy" under the
one-capture-group pattern matching "S\x5cd\x5cdE\x5cd\x5cd (.+)", the
Filename segment text is "Prophecy". -/
theorem c8_filename_extraction :
    (∀ (cap : CapFun) (text : List Char),
      cap text = none → extract_name (some cap) text = text)
    ∧ (∀ (cap : CapFun) (text g1 : List Char) (gs : Nat → Option (List Char)),
        cap text = some gs → gs 1 = some g1 → extract_name (some cap) text = g1)
    ∧ (∀ (cap : CapFun) (text g0 : List Char) (gs : Nat → Option (List Char)),
        cap text = some gs → gs 1 = none → gs 0 = some g0 →
          extract_name (some cap) text = g0)
    ∧ extract_name (some epCaptures) ("Highlander S05E01 Prophecy".toList)
      = "Prophecy".toList := by
  refine ⟨?_, ?_, ?_, ?_⟩
  · intro cap text h
    rw [show extract_name (some cap) text = (match cap text with
        | none => text
        | some gs =>
          match gs 1 with
          | some s => s
          | none =>
            match gs 0 with
            | some s => s
            | none => text) from rfl, h]
  · intro cap text g1 gs hcap hg1
    rw [show extract_name (some cap) text = (match cap text with
        | none => text
        | some gs =>
          match gs 1 with
          | some s => s
          | none =>
            match gs 0 with
            | some s => s
            | none => text) from rfl, hcap]
    show (match gs 1 with
        | some s => s
        | none =>
          match gs 0 with
          | some s => s
          | none => text) = g1
    rw [hg1]
  · intro cap text g0 gs hcap hg1 hg0
    rw [show extract_name (some cap) text = (match cap text with
        | none => text
        | some gs =>
          match gs 1 with
          | some s => s
          | none =>
            match gs 0 with
            | some s => s
            | none => text) from rfl, hcap]
    show (match gs 1 with
        | some s => s
        | none =>
          match gs 0 with
          | some s => s
          | none => text) = g0
    rw [hg1]
    show (match gs 0 with
        | some s => s
        | none => text) = g0
    rw [hg0]
  · decide

/-- Witness for C8: the group-1 branch applied to the concrete episode
captures at the claim's stem. -/
theorem c8_filename_extraction_witness :
    extract_name (some epCaptures) ("Highlander S05E01 Prophecy".toList)
      = "Prophecy".toList :=
  c8_filename_extraction.2.1 epCaptures ("Highlander S05E01 Prophecy".toList)
    ("Prophecy".toList)
    (fun n => if n = 0 then some ("S05E01 Prophecy".toList)
      else if n = 1 then some ("Prophecy".toList) else none)
    rfl rfl

end MassMv
